import Mathlib

/-!
Shallow embedding of the `fractal-rs` Mandelbrot renderer
(`src/lib.rs`, `src/util.rs`) and verification of the specification's
claims about it.

Modelling conventions:
* `f64` / `f32` values are idealized as exact rationals (`ℚ`) for the
  field arithmetic of the pipeline, and as real numbers (`ℝ`) where the
  code takes square roots and logarithms (`calc_point`) or consumes such
  values.  Machine integer counters (`u16`, `u32`, `i32` used as a
  counter) are modelled as `ℕ`.
* Rust float-to-integer `as` casts saturate and truncate toward zero;
  they are modelled explicitly (`truncR`, `satFloor`, `satCeil`, `toI32`,
  `toU8`).
* `Vec<u8>` buffers are `List ℕ` whose entries are byte values.
* `Mandelbrot::render` takes `&mut self`; it is modelled as a function
  returning the image buffer together with the mutated receiver.
-/

set_option maxHeartbeats 1000000

namespace FractalRs

/-- Model of `num::complex::Complex64`: a complex number with two `f64` components,
idealized as exact rationals. -/
structure Complex64 where
  re : ℚ
  im : ℚ
deriving DecidableEq

/-- Complex addition, as used by `(z * z) + c`. -/
def Complex64.add (a b : Complex64) : Complex64 :=
  ⟨a.re + b.re, a.im + b.im⟩

/-- Complex multiplication of the `num` crate. -/
def Complex64.mul (a b : Complex64) : Complex64 :=
  ⟨a.re * b.re - a.im * b.im, a.re * b.im + a.im * b.re⟩

/-- Model of `Complex64::norm_sqr`: `re * re + im * im`. -/
def Complex64.norm_sqr (z : Complex64) : ℚ :=
  z.re * z.re + z.im * z.im

/-- Model of `PixelFormat` (src/lib.rs lines 11-14). -/
inductive PixelFormat
  | RGBA8
  | BGRA8
deriving DecidableEq

/-- Model of `Config` (src/lib.rs lines 18-25); `u32` width/height and `u16` iter
modelled as `ℕ`. -/
structure Config where
  width : ℕ
  height : ℕ
  center : Complex64
  zoom : ℚ
  iter : ℕ
  pix : PixelFormat

/-- Model of `Config::new` (src/lib.rs lines 29-46): builds the record with no
validation whatsoever. -/
def Config.new (width height : ℕ) (cx cy zoom : ℚ) (iter : ℕ)
    (pix : PixelFormat) : Config :=
  { width := width, height := height, center := ⟨cx, cy⟩, zoom := zoom,
    iter := iter, pix := pix }

/-- The constant `DEFAULT_ZOOM` (src/lib.rs line 8): the decimal literal `0.003333333`. -/
def DEFAULT_ZOOM : ℚ := 3333333 / 1000000000

/-- Model of `Mandelbrot` (src/lib.rs lines 50-55).  `hist: Vec<u32>` is a `List ℕ`
and `iter_total: i32` is a `ℕ` (the code only ever increments it starting
from 0). -/
structure Mandelbrot where
  config : Config
  hist : List ℕ
  iter_total : ℕ
  viewport : Complex64 × Complex64

/-- Model of `Mandelbrot::new` (src/lib.rs lines 88-109).  `Vec::with_capacity`
creates an *empty* vector, so `hist` starts as `[]`.  No field of the
configuration is validated. -/
def Mandelbrot.new (config : Config) : Mandelbrot :=
  let zoom := DEFAULT_ZOOM / config.zoom
  let viewport_height := (config.height : ℚ) / 2 * zoom
  let viewport_width := (config.width : ℚ) / 2 * zoom
  { config := config
    hist := []
    iter_total := 0
    viewport :=
      (⟨config.center.re - viewport_width, config.center.im + viewport_height⟩,
       ⟨config.center.re + viewport_width, config.center.im - viewport_height⟩) }

/-! ## The escape-time evaluator `calc_point` (src/lib.rs lines 200-213) -/

/-- One body of the `calc_point` loop: `z = (z * z) + c` (line 205). -/
def stepZ (c z : Complex64) : Complex64 := (z.mul z).add c

/-- The orbit of `0` under `z ↦ z² + c`; `zIter c n` is the value of `z`
after `n` loop iterations. -/
def zIter (c : Complex64) : ℕ → Complex64
  | 0 => ⟨0, 0⟩
  | n + 1 => stepZ c (zIter c n)

/-- The `while (z.norm_sqr() <= 4.0) && (iter < cap)` loop of `calc_point`
(lines 204-207), with the bound `iter < cap` encoded by the fuel argument:
the loop is entered with `fuel = cap - iter`, so `fuel = 0` is exactly
`¬ (iter < cap)`, and each pass consumes one unit of fuel as it increments
`iter`.  Returns the final `(iter, z)` pair. -/
def calcLoop (c : Complex64) : ℕ → ℕ → Complex64 → ℕ × Complex64
  | 0, iter, z => (iter, z)
  | fuel + 1, iter, z =>
      if z.norm_sqr ≤ 4 then calcLoop c fuel (iter + 1) (stepZ c z)
      else (iter, z)

/-- Model of `Mandelbrot::calc_point` (lines 200-213) with the iteration cap
`self.config.iter` abstracted as a parameter: run the loop from `z = 0`,
`iter = 0`; if the cap was reached return it exactly, otherwise return
`iter + 1 - log10(log2(sqrt(norm_sqr z)))`. -/
noncomputable def calcPoint (cap : ℕ) (c : Complex64) : ℝ :=
  let r := calcLoop c cap 0 ⟨0, 0⟩
  if r.1 = cap then (cap : ℝ)
  else (r.1 : ℝ) + 1 - Real.logb 10 (Real.logb 2 (Real.sqrt ((r.2.norm_sqr : ℝ))))

/-- The method `calc_point` exactly as it reads its cap from `self`. -/
noncomputable def Mandelbrot.calc_point (m : Mandelbrot) (c : Complex64) : ℝ :=
  calcPoint m.config.iter c

/-! ## Rust numeric cast semantics -/

/-- Truncation toward zero: the rounding used by Rust float-to-integer
`as` casts and by float `%`. -/
noncomputable def truncR (x : ℝ) : ℤ := if 0 ≤ x then ⌊x⌋ else ⌈x⌉

/-- Rust float `%`: remainder with the sign of the dividend,
`a - b * trunc (a / b)`. -/
noncomputable def rustRem (a b : ℝ) : ℝ := a - b * (truncR (a / b) : ℝ)

/-- Rust `as i32` on a float: truncate toward zero, saturating at the i32
range. -/
noncomputable def toI32 (x : ℝ) : ℤ :=
  max (-2147483648) (min 2147483647 (truncR x))

/-- Rust `as u8` on a float: truncate toward zero, saturating at `[0, 255]`. -/
noncomputable def toU8 (x : ℝ) : ℕ := (max 0 (min 255 (truncR x))).toNat

/-- Rust `as usize` on the floats fed to `floor()` in `render`: negative
values saturate to `0` (the values in range here are far below `usize::MAX`,
so only the lower saturation matters). -/
noncomputable def satFloor (x : ℝ) : ℕ := (⌊x⌋).toNat

/-- Rust `as usize` applied to `m.ceil()`. -/
noncomputable def satCeil (x : ℝ) : ℕ := (⌈x⌉).toNat

/-! ## `hsl_rgb` (src/util.rs lines 21-51) -/

/-- The sextant index `arc` of `hsl_rgb` (util.rs line 26):
`hue as i32 / 60`, an i32 division truncating toward zero. -/
noncomputable def hslArc (hue : ℝ) : ℤ := Int.tdiv (toI32 hue) 60

/-- Model of `hsl_rgb` (util.rs lines 21-51).  The match on `arc` has arms
`0, 1, 2, 3, 4` and a catch-all `_` arm. -/
noncomputable def hsl_rgb (hue sat lum : ℝ) : ℕ × ℕ × ℕ :=
  let c := (1 - |2 * lum - 1|) * sat
  let x := c * (1 - |rustRem (hue / 60) 2 - 1|)
  let m := lum - c / 2
  let arc := hslArc hue
  let rgb_prime : ℝ × ℝ × ℝ :=
    if arc = 0 then (c, x, 0)
    else if arc = 1 then (x, c, 0)
    else if arc = 2 then (0, c, x)
    else if arc = 3 then (0, x, c)
    else if arc = 4 then (x, 0, c)
    else (c, 0, x)
  (toU8 ((rgb_prime.1 + m) * 255), toU8 ((rgb_prime.2.1 + m) * 255),
   toU8 ((rgb_prime.2.2 + m) * 255))

/-- Model of `point_color` (src/lib.rs lines 215-219): `lum = 0.5`, `sat = 0.90`. -/
noncomputable def point_color (hue : ℝ) : ℕ × ℕ × ℕ :=
  hsl_rgb hue (90 / 100) (50 / 100)

/-! ## `Mandelbrot::render` (src/lib.rs lines 117-194) -/

/-- The local `x_step` of `render` (line 124). -/
def Mandelbrot.x_step (m : Mandelbrot) : ℚ :=
  |m.viewport.2.re - m.viewport.1.re| / (m.config.width : ℚ)

/-- The local `y_step` of `render` (line 125). -/
def Mandelbrot.y_step (m : Mandelbrot) : ℚ :=
  |m.viewport.1.im - m.viewport.2.im| / (m.config.height : ℚ)

/-- The complex point sampled for pixel `(x, y)` (lines 129-132). -/
def Mandelbrot.pixelPoint (m : Mandelbrot) (x y : ℕ) : Complex64 :=
  ⟨m.viewport.1.re + (x : ℚ) * m.x_step, m.viewport.1.im - (y : ℚ) * m.y_step⟩

/-- The vector `image_iter` as filled by pass 1 (lines 127-139): the per-pixel
continuous iteration values, pushed row by row (row-major). -/
noncomputable def Mandelbrot.imageIter (m : Mandelbrot) : List ℝ :=
  (List.range m.config.height).flatMap fun y =>
    (List.range m.config.width).map fun x =>
      calcPoint m.config.iter (m.pixelPoint x y)

/-- The histogram update of pass 1 for one pixel value (lines 133-137):
if `iter < cap` then `hist[iter.floor() as usize] += 1; iter_total += 1`. -/
noncomputable def pass1Step (cap : ℕ) (st : List ℕ × ℕ) (mv : ℝ) : List ℕ × ℕ :=
  if mv < (cap : ℝ) then
    (st.1.set (satFloor mv) (st.1.getD (satFloor mv) 0 + 1), st.2 + 1)
  else st

/-- Pass 1 (lines 127-140) acting on the histogram state: fold the
per-pixel update over all pixel values. -/
noncomputable def pass1 (cap : ℕ) (vals : List ℝ) (hist : List ℕ) (total : ℕ) :
    List ℕ × ℕ :=
  vals.foldl (pass1Step cap) (hist, total)

/-- The cumulative-normalization loop body (lines 144-147):
`val += hist[i] as f32 / iter_total as f32; hues.push(val)`, run over
`hist[0..cap]` (passed in as the list argument). -/
def cumulative (total : ℕ) : ℚ → List ℕ → List ℚ
  | _, [] => []
  | val, h :: rest =>
      (val + (h : ℚ) / (total : ℚ)) ::
        cumulative total (val + (h : ℚ) / (total : ℚ)) rest

/-- The hues table (lines 142-148): the cumulative loop over
`hist[0..cap]` followed by `hues.push(0.0)`. -/
def huesList (cap : ℕ) (hist : List ℕ) (total : ℕ) : List ℚ :=
  cumulative total 0 (hist.take cap) ++ [0]

/-- An `f32` value: `some q` is a finite value idealized as an exact
rational; `none` is a non-finite value (NaN or ±infinity). -/
def addF : Option ℚ → Option ℚ → Option ℚ
  | some a, some b => some (a + b)
  | _, _ => none

/-- IEEE `f32` division `hist[i] as f32 / iter_total as f32` (line 145):
dividing a finite value by zero never produces a finite value
(`0.0 / 0.0` is NaN, `x / 0.0` is ±infinity). -/
def divF (a : ℕ) (total : ℕ) : Option ℚ :=
  if total = 0 then none else some ((a : ℚ) / (total : ℚ))

/-- The cumulative-normalization loop in the f32-faithful model. -/
def cumulativeF (total : ℕ) : Option ℚ → List ℕ → List (Option ℚ)
  | _, [] => []
  | val, h :: rest =>
      addF val (divF h total) :: cumulativeF total (addF val (divF h total)) rest

/-- The hues table (lines 142-148) in the f32-faithful model. -/
def huesListF (cap : ℕ) (hist : List ℕ) (total : ℕ) : List (Option ℚ) :=
  cumulativeF total (some 0) (hist.take cap) ++ [some 0]

/-- Model of `linear_interpolation` (lines 196-198). -/
def linear_interpolation (a b t : ℝ) : ℝ := a * (1 - t) + b * t

/-- The hue computed for one pixel in pass 2 (lines 153-164): `0.0` unless
the pixel escaped, in which case
`360 - lerp(hues[m.floor() as usize], hues[m.ceil() as usize], m % 1.0) * 360`. -/
noncomputable def pixelHue (cap : ℕ) (hues : List ℚ) (mv : ℝ) : ℝ :=
  if mv ≠ (cap : ℝ) then
    360 - linear_interpolation ((hues.getD (satFloor mv) 0 : ℚ) : ℝ)
        ((hues.getD (satCeil mv) 0 : ℚ) : ℝ) (rustRem mv 1) * 360
  else 0

/-- The four bytes pushed for one pixel in pass 2 (lines 166-190). -/
noncomputable def pixelBytes (cap : ℕ) (pix : PixelFormat) (hues : List ℚ)
    (mv : ℝ) : List ℕ :=
  if mv ≠ (cap : ℝ) then
    let rgb := point_color (pixelHue cap hues mv)
    match pix with
    | PixelFormat.RGBA8 => [rgb.1, rgb.2.1, rgb.2.2, 255]
    | PixelFormat.BGRA8 => [rgb.2.2, rgb.2.1, rgb.1, 255]
  else [0, 0, 0, 255]

/-- Pass 2 (lines 149-192): the byte buffer, four bytes per pixel in
row-major pixel order (the code indexes `image_iter[y * w + x]`, which
walks `image_iter` in order). -/
noncomputable def pass2 (cap : ℕ) (pix : PixelFormat) (hues : List ℚ)
    (vals : List ℝ) : List ℕ :=
  vals.flatMap (pixelBytes cap pix hues)

/-- The histogram state at the end of a call to `render`: the prep loop
(lines 121-123) pushes `cap` zeros onto the *existing* `self.hist`, then
pass 1 folds over the pixel values starting from the *existing*
`self.iter_total`. -/
noncomputable def Mandelbrot.renderState (m : Mandelbrot) : List ℕ × ℕ :=
  pass1 m.config.iter m.imageIter (m.hist ++ List.replicate m.config.iter 0)
    m.iter_total

/-- The hues table `render` builds (lines 142-148), idealized over `ℚ`. -/
noncomputable def Mandelbrot.renderHues (m : Mandelbrot) : List ℚ :=
  huesList m.config.iter m.renderState.1 m.renderState.2

/-- The hues table `render` builds, in the f32-faithful model where a
non-finite value is `none`. -/
noncomputable def Mandelbrot.renderHuesF (m : Mandelbrot) : List (Option ℚ) :=
  huesListF m.config.iter m.renderState.1 m.renderState.2

/-- Model of `Mandelbrot::render` (lines 117-194): returns the image buffer and the
mutated receiver (whose `hist` and `iter_total` keep the accumulated
values; `config` and `viewport` are untouched). -/
noncomputable def Mandelbrot.render (m : Mandelbrot) : List ℕ × Mandelbrot :=
  (pass2 m.config.iter m.config.pix m.renderHues m.imageIter,
   { m with hist := m.renderState.1, iter_total := m.renderState.2 })

/-! ## Concrete configurations used in witnesses and counterexamples -/

/-- A configuration that is invalid on two counts — zero width and zero
iteration cap. -/
def cfgInvalid : Config := Config.new 0 100 0 0 1 0 PixelFormat.RGBA8

/-- A 1×1 configuration centered at 3 + 0i (zoom 1, cap 2) whose single
pixel escapes at the first iteration. -/
def cfgEscape : Config := Config.new 1 1 3 0 1 2 PixelFormat.RGBA8

/-- A 1×1 configuration centered at the origin (zoom 1, cap 2) whose single
pixel never escapes, so the escape total stays 0. -/
def cfgInside : Config := Config.new 1 1 0 0 1 2 PixelFormat.RGBA8

/-! ## Properties of the escape loop -/

lemma zIter_succ (c : Complex64) (n : ℕ) :
    zIter c (n + 1) = stepZ c (zIter c n) := rfl

/-- If no orbit point strictly before `iter + fuel` has escaped, the loop
runs out of fuel, i.e. the iteration count reaches the cap. -/
lemma calcLoop_noescape (c : Complex64) :
    ∀ (fuel iter : ℕ), (∀ j, j < fuel → (zIter c (iter + j)).norm_sqr ≤ 4) →
      calcLoop c fuel iter (zIter c iter) = (iter + fuel, zIter c (iter + fuel))
  | 0, iter, _h => by simp [calcLoop]
  | fuel + 1, iter, h => by
      have h0 : (zIter c iter).norm_sqr ≤ 4 := by
        simpa using h 0 (Nat.succ_pos fuel)
      have ih := calcLoop_noescape c fuel (iter + 1) (fun j hj => by
        have h' := h (j + 1) (by omega)
        have e : iter + (j + 1) = iter + 1 + j := by omega
        rwa [e] at h')
      have estep : stepZ c (zIter c iter) = zIter c (iter + 1) := rfl
      have efin : iter + 1 + fuel = iter + (fuel + 1) := by omega
      simp only [calcLoop]
      rw [if_pos h0, estep, ih, efin]

/-- If the first escaping orbit point `n₀` lies strictly below `iter + fuel`,
the loop stops there and returns `(n₀, z_{n₀})`. -/
lemma calcLoop_escape (c : Complex64) :
    ∀ (fuel iter n₀ : ℕ), iter ≤ n₀ → n₀ < iter + fuel →
      (∀ j, iter ≤ j → j < n₀ → (zIter c j).norm_sqr ≤ 4) →
      4 < (zIter c n₀).norm_sqr →
      calcLoop c fuel iter (zIter c iter) = (n₀, zIter c n₀)
  | 0, _iter, _n₀, h1, h2, _hle, _hgt => absurd h2 (by omega)
  | fuel + 1, iter, n₀, h1, h2, hle, hgt => by
      rcases eq_or_lt_of_le h1 with heq | hlt
      · subst heq
        simp only [calcLoop]
        rw [if_neg (not_le.mpr hgt)]
      · have h0 : (zIter c iter).norm_sqr ≤ 4 := hle iter le_rfl hlt
        have ih := calcLoop_escape c fuel (iter + 1) n₀ (by omega) (by omega)
          (fun j hj1 hj2 => hle j (by omega) hj2) hgt
        have estep : stepZ c (zIter c iter) = zIter c (iter + 1) := rfl
        simp only [calcLoop]
        rw [if_pos h0, estep, ih]

/-- The function `calc_point` returns the cap exactly when no orbit point strictly below
the cap escapes. -/
lemma calcPoint_of_noescape (c : Complex64) (cap : ℕ)
    (h : ∀ n, n < cap → (zIter c n).norm_sqr ≤ 4) : calcPoint cap c = cap := by
  have hz0 : zIter c 0 = (⟨0, 0⟩ : Complex64) := rfl
  have hrun := calcLoop_noescape c cap 0 (fun j hj => by simpa using h j hj)
  rw [hz0] at hrun
  simp [calcPoint, hrun]

/-- The function `calc_point` on an escaping point: the loop stops at the first escaping
index `n₀` and the continuous formula is applied to `z_{n₀}`. -/
lemma calcPoint_of_escape (c : Complex64) (cap n₀ : ℕ) (hn : n₀ < cap)
    (hbelow : ∀ j, j < n₀ → (zIter c j).norm_sqr ≤ 4)
    (hesc : 4 < (zIter c n₀).norm_sqr) :
    calcPoint cap c =
      (n₀ : ℝ) + 1 -
        Real.logb 10 (Real.logb 2 (Real.sqrt (((zIter c n₀).norm_sqr : ℚ) : ℝ))) := by
  have hz0 : zIter c 0 = (⟨0, 0⟩ : Complex64) := rfl
  have hrun := calcLoop_escape c cap 0 n₀ (Nat.zero_le _) (by omega)
    (fun j _ hj => hbelow j hj) hesc
  rw [hz0] at hrun
  simp only [calcPoint, hrun]
  rw [if_neg (by omega)]

/-- There is a least escaping index below the cap as soon as there is any. -/
lemma exists_least_escape (c : Complex64) (cap : ℕ)
    (hex : ∃ n, n < cap ∧ 4 < (zIter c n).norm_sqr) :
    ∃ n₀, n₀ < cap ∧ 4 < (zIter c n₀).norm_sqr ∧
      ∀ j, j < n₀ → (zIter c j).norm_sqr ≤ 4 := by
  classical
  obtain ⟨n, hn, hesc⟩ := hex
  have hex' : ∃ m, 4 < (zIter c m).norm_sqr := ⟨n, hesc⟩
  refine ⟨Nat.find hex', lt_of_le_of_lt (Nat.find_min' hex' hesc) hn,
    Nat.find_spec hex', fun j hj => not_lt.mp (Nat.find_min hex' hj)⟩

/-! ## Bounds on the nested-logarithm correction term -/

/-- On escape `|z| > 2`, so `log10 (log2 |z|) > 0`. -/
lemma sqrt_norm_gt_two {q : ℚ} (h : 4 < q) : 2 < Real.sqrt ((q : ℚ) : ℝ) := by
  rw [show ((2 : ℝ)) = Real.sqrt (2 ^ 2) from (Real.sqrt_sq (by norm_num)).symm]
  apply Real.sqrt_lt_sqrt (by norm_num)
  norm_num
  exact_mod_cast h

lemma sqrt_norm_le_six {q : ℚ} (h : q ≤ 36) : Real.sqrt ((q : ℚ) : ℝ) ≤ 6 := by
  rw [show ((6 : ℝ)) = Real.sqrt (6 ^ 2) from (Real.sqrt_sq (by norm_num)).symm]
  apply Real.sqrt_le_sqrt
  norm_num
  exact_mod_cast h

lemma one_lt_logb_two {r : ℝ} (hr : 2 < r) : 1 < Real.logb 2 r := by
  rw [Real.lt_logb_iff_rpow_lt (by norm_num) (by linarith)]
  simpa [Real.rpow_one] using hr

lemma logb_nested_pos {r : ℝ} (hr : 2 < r) :
    0 < Real.logb 10 (Real.logb 2 r) :=
  Real.logb_pos (by norm_num) (one_lt_logb_two hr)

lemma logb_nested_lt_one {r : ℝ} (hr2 : 2 < r) (hr6 : r ≤ 6) :
    Real.logb 10 (Real.logb 2 r) < 1 := by
  have hy1 : 1 < Real.logb 2 r := one_lt_logb_two hr2
  have hy : Real.logb 2 r < 10 := by
    rw [Real.logb_lt_iff_lt_rpow (by norm_num) (by linarith)]
    have h1024 : (2 : ℝ) ^ (10 : ℝ) = 1024 := by
      rw [show (10 : ℝ) = ((10 : ℕ) : ℝ) by norm_num, Real.rpow_natCast]
      norm_num
    rw [h1024]; linarith
  calc Real.logb 10 (Real.logb 2 r) < Real.logb 10 10 := by
        apply Real.logb_lt_logb (by norm_num) (by linarith) hy
    _ = 1 := Real.logb_self_eq_one (by norm_num)

/-! ## Range of `calc_point` -/

lemma escape_of_calcPoint_lt (cap : ℕ) (c : Complex64)
    (h : calcPoint cap c < cap) :
    ∃ n, n < cap ∧ 4 < (zIter c n).norm_sqr := by
  by_contra hne
  push_neg at hne
  rw [calcPoint_of_noescape c cap (fun n hn => hne n hn)] at h
  exact lt_irrefl _ h

lemma calcPoint_lt_cap_of_escape (cap : ℕ) (c : Complex64)
    (hex : ∃ n, n < cap ∧ 4 < (zIter c n).norm_sqr) :
    calcPoint cap c < cap := by
  obtain ⟨n₀, h1, h2, h3⟩ := exists_least_escape c cap hex
  rw [calcPoint_of_escape c cap n₀ h1 h3 h2]
  have hL := logb_nested_pos (sqrt_norm_gt_two h2)
  have hcap : (n₀ : ℝ) + 1 ≤ (cap : ℝ) := by exact_mod_cast Nat.succ_le_of_lt h1
  linarith

lemma calcPoint_le_cap (cap : ℕ) (c : Complex64) : calcPoint cap c ≤ cap := by
  by_cases hex : ∃ n, n < cap ∧ 4 < (zIter c n).norm_sqr
  · exact le_of_lt (calcPoint_lt_cap_of_escape cap c hex)
  · push_neg at hex
    rw [calcPoint_of_noescape c cap (fun n hn => hex n hn)]

/-- One application of `z ↦ z² + c` to a not-yet-escaped `z`, with `|c| ≤ 2`,
has squared modulus at most 36 (so `|z'| ≤ 6`). -/
lemma step_norm_le {c z : Complex64} (hz : z.norm_sqr ≤ 4)
    (hc : c.norm_sqr ≤ 4) : (stepZ c z).norm_sqr ≤ 36 := by
  obtain ⟨a, b⟩ := z
  obtain ⟨p, q⟩ := c
  simp only [Complex64.norm_sqr, stepZ, Complex64.mul, Complex64.add] at *
  have hAB : (a * a - b * b) * (a * a - b * b) + (a * b + b * a) * (a * b + b * a) ≤ 16 := by
    nlinarith [sq_nonneg (a * a + b * b)]
  have hcauchy : ((a * a - b * b) * p + (a * b + b * a) * q) ^ 2 ≤ 16 * 4 := by
    nlinarith [sq_nonneg ((a * a - b * b) * q - (a * b + b * a) * p),
      sq_nonneg (a * a - b * b), sq_nonneg (a * b + b * a), sq_nonneg p, sq_nonneg q]
  have hcross : (a * a - b * b) * p + (a * b + b * a) * q ≤ 8 := by
    nlinarith [hcauchy]
  nlinarith [hAB, hcross]

/-- With `|c| ≤ 2` the continuous value is nonnegative: the correction term
`log10 (log2 |z|)` is strictly below 1 while the escape index is at least 1. -/
lemma calcPoint_nonneg_of_small (cap : ℕ) (c : Complex64)
    (hc : c.norm_sqr ≤ 4) : 0 ≤ calcPoint cap c := by
  by_cases hex : ∃ n, n < cap ∧ 4 < (zIter c n).norm_sqr
  · obtain ⟨n₀, h1, h2, h3⟩ := exists_least_escape c cap hex
    have hn0 : n₀ ≠ 0 := by
      intro h0
      rw [h0] at h2
      norm_num [zIter, Complex64.norm_sqr] at h2
    obtain ⟨k, rfl⟩ : ∃ k, n₀ = k + 1 := ⟨n₀ - 1, by omega⟩
    have hzk : (zIter c k).norm_sqr ≤ 4 := h3 k (by omega)
    have h36 : (zIter c (k + 1)).norm_sqr ≤ 36 := by
      rw [zIter_succ]
      exact step_norm_le hzk hc
    rw [calcPoint_of_escape c cap (k + 1) h1 h3 h2]
    have hgt2 := sqrt_norm_gt_two h2
    have hle6 := sqrt_norm_le_six h36
    have hL := logb_nested_lt_one hgt2 hle6
    have hk : (0 : ℝ) ≤ ((k + 1 : ℕ) : ℝ) := by positivity
    push_cast at hk ⊢
    linarith
  · push_neg at hex
    rw [calcPoint_of_noescape c cap (fun n hn => hex n hn)]
    positivity

/-! ## Auxiliary list lemmas for the histogram fold -/

lemma getD_set_eq_ite (l : List ℕ) :
    ∀ (j i a : ℕ), (l.set j a).getD i 0 =
      if j = i ∧ j < l.length then a else l.getD i 0 := by
  induction l with
  | nil => intro j i a; simp
  | cons x xs ih =>
      intro j i a
      cases j with
      | zero =>
          cases i with
          | zero => simp
          | succ i => simp
      | succ j =>
          cases i with
          | zero => simp
          | succ i =>
              simp only [List.set, List.getD_cons_succ, ih j i a, List.length_cons]
              by_cases h : j = i ∧ j < xs.length
              · rw [if_pos h, if_pos ⟨by omega, by omega⟩]
              · rw [if_neg h, if_neg (by omega)]

lemma sum_set_getD_succ :
    ∀ (l : List ℕ) (j : ℕ), j < l.length →
      (l.set j (l.getD j 0 + 1)).sum = l.sum + 1
  | [], j, h => absurd h (by simp)
  | x :: xs, 0, _ => by simp [Nat.add_comm, Nat.add_assoc, Nat.add_left_comm]
  | x :: xs, j + 1, h => by
      simp only [List.set, List.getD_cons_succ, List.sum_cons]
      rw [sum_set_getD_succ xs j (by simpa using h)]
      omega

lemma getD_le_sum : ∀ (l : List ℕ) (i : ℕ), l.getD i 0 ≤ l.sum
  | [], i => by simp
  | x :: xs, 0 => by simp
  | x :: xs, i + 1 => by
      simp only [List.getD_cons_succ, List.sum_cons]
      exact le_trans (getD_le_sum xs i) (Nat.le_add_left _ _)

lemma take_sum_le : ∀ (l : List ℕ) (n : ℕ), (l.take n).sum ≤ l.sum := by
  intro l n
  have := List.sum_take_add_sum_drop l n
  omega

lemma getD_le_take_sum : ∀ (l : List ℕ) (k : ℕ), k < l.length →
    l.getD k 0 ≤ (l.take (k + 1)).sum
  | [], k, h => absurd h (by simp)
  | x :: xs, 0, _ => by simp
  | x :: xs, k + 1, h => by
      simp only [List.getD_cons_succ, List.take_succ_cons, List.sum_cons]
      exact le_trans (getD_le_take_sum xs k (by simpa using h)) (Nat.le_add_left _ _)

/-! ## Invariants of pass 1 -/

lemma pass1Step_length (cap : ℕ) (st : List ℕ × ℕ) (v : ℝ) :
    ((pass1Step cap st v).1).length = st.1.length := by
  unfold pass1Step
  split <;> simp

lemma pass1_length (cap : ℕ) :
    ∀ (vals : List ℝ) (st : List ℕ × ℕ),
      ((vals.foldl (pass1Step cap) st).1).length = st.1.length
  | [], _ => rfl
  | v :: vs, st => by
      rw [List.foldl_cons, pass1_length cap vs, pass1Step_length]

lemma pass1Step_getD_le (cap : ℕ) (st : List ℕ × ℕ) (v : ℝ) (i : ℕ) :
    st.1.getD i 0 ≤ ((pass1Step cap st v).1).getD i 0 := by
  unfold pass1Step
  split
  · simp only [getD_set_eq_ite]
    split
    · next h => rw [← (show satFloor v = i from h.1)]; omega
    · exact le_rfl
  · exact le_rfl

lemma pass1_getD_le (cap : ℕ) :
    ∀ (vals : List ℝ) (st : List ℕ × ℕ) (i : ℕ),
      st.1.getD i 0 ≤ ((vals.foldl (pass1Step cap) st).1).getD i 0
  | [], _, _ => le_rfl
  | v :: vs, st, i => by
      rw [List.foldl_cons]
      exact le_trans (pass1Step_getD_le cap st v i) (pass1_getD_le cap vs _ i)

/-- Every escaped pixel's bucket ends up nonempty. -/
lemma pass1_bucket (cap : ℕ) :
    ∀ (vals : List ℝ) (st : List ℕ × ℕ) (mv : ℝ), mv ∈ vals → mv < (cap : ℝ) →
      satFloor mv < st.1.length →
      1 ≤ ((vals.foldl (pass1Step cap) st).1).getD (satFloor mv) 0
  | [], _, _, hmem, _, _ => absurd hmem (by simp)
  | v :: vs, st, mv, hmem, hlt, hlen => by
      rw [List.foldl_cons]
      rcases List.mem_cons.mp hmem with heq | htail
      · subst heq
        refine le_trans ?_ (pass1_getD_le cap vs _ _)
        unfold pass1Step
        rw [if_pos hlt, getD_set_eq_ite,
          if_pos (show satFloor mv = satFloor mv ∧ satFloor mv < st.1.length from ⟨rfl, hlen⟩)]
        omega
      · exact pass1_bucket cap vs _ mv htail hlt
          (by rw [pass1Step_length]; exact hlen)

/-- Pass 1 adds to the total exactly what it adds to the histogram: the sum
of the histogram entries grows in lockstep with `iter_total`. -/
lemma pass1_sum (cap : ℕ) :
    ∀ (vals : List ℝ) (st : List ℕ × ℕ),
      (∀ mv ∈ vals, mv < (cap : ℝ) → satFloor mv < st.1.length) →
      ((vals.foldl (pass1Step cap) st).1).sum + st.2 =
        st.1.sum + (vals.foldl (pass1Step cap) st).2
  | [], _, _ => rfl
  | v :: vs, st, h => by
      rw [List.foldl_cons]
      have hlen' : ∀ mv ∈ vs, mv < (cap : ℝ) → satFloor mv < (pass1Step cap st v).1.length := by
        intro mv hm hc
        rw [pass1Step_length]
        exact h mv (List.mem_cons_of_mem _ hm) hc
      have ih := pass1_sum cap vs (pass1Step cap st v) hlen'
      by_cases hv : v < (cap : ℝ)
      · have hstep : pass1Step cap st v =
            (st.1.set (satFloor v) (st.1.getD (satFloor v) 0 + 1), st.2 + 1) := by
          unfold pass1Step; rw [if_pos hv]
        have hlenv : satFloor v < st.1.length := h v (List.mem_cons_self _ _) hv
        rw [hstep] at ih
        have hsum := sum_set_getD_succ st.1 (satFloor v) hlenv
        rw [hstep]
        simp only [hsum] at ih
        omega
      · have hstep : pass1Step cap st v = st := by
          unfold pass1Step; rw [if_neg hv]
        rw [hstep] at ih ⊢
        exact ih

/-! ## The cumulative hues table -/

lemma cumulative_length (t : ℕ) :
    ∀ (l : List ℕ) (val : ℚ), (cumulative t val l).length = l.length
  | [], _ => rfl
  | h :: rest, val => by
      simp only [cumulative, List.length_cons, cumulative_length t rest]

lemma cumulative_getD (t : ℕ) :
    ∀ (l : List ℕ) (k : ℕ) (val : ℚ), k < l.length →
      (cumulative t val l).getD k 0 = val + (((l.take (k + 1)).sum : ℕ) : ℚ) / (t : ℚ)
  | [], k, _, h => absurd h (by simp)
  | h :: rest, 0, val, _ => by
      simp [cumulative]
  | h :: rest, k + 1, val, hk => by
      simp only [cumulative, List.getD_cons_succ]
      rw [cumulative_getD t rest k _ (by simpa using hk)]
      simp only [List.take_succ_cons, List.sum_cons]
      push_cast
      rw [add_div]
      ring

/-- Entries of the hues table are nonnegative. -/
lemma huesList_getD_nonneg (cap : ℕ) (hist : List ℕ) (t : ℕ) (j : ℕ) :
    0 ≤ (huesList cap hist t).getD j 0 := by
  unfold huesList
  by_cases hj : j < (cumulative t 0 (hist.take cap)).length
  · rw [List.getD_append _ _ _ _ hj]
    rw [cumulative_getD t _ j 0 (by rwa [cumulative_length] at hj)]
    positivity
  · push_neg at hj
    rw [List.getD_append_right _ _ _ _ hj]
    rcases Nat.eq_zero_or_pos (j - (cumulative t 0 (hist.take cap)).length) with h | h
    · rw [h]; simp
    · have hlen1 : ([0] : List ℚ).length ≤ j - (cumulative t 0 (hist.take cap)).length := by
        simp only [List.length_singleton]
        omega
      rw [List.getD_eq_default _ _ hlen1]

/-- Entries of the hues table are at most 1 as soon as the histogram slice
sums to at most the escape total. -/
lemma huesList_getD_le_one (cap : ℕ) (hist : List ℕ) (t : ℕ)
    (htot : (hist.take cap).sum ≤ t) (j : ℕ) :
    (huesList cap hist t).getD j 0 ≤ 1 := by
  unfold huesList
  by_cases hj : j < (cumulative t 0 (hist.take cap)).length
  · rw [List.getD_append _ _ _ _ hj]
    rw [cumulative_getD t _ j 0 (by rwa [cumulative_length] at hj)]
    rcases Nat.eq_zero_or_pos t with ht | ht
    · have : ((hist.take cap).take (j + 1)).sum = 0 := by
        have := take_sum_le (hist.take cap) (j + 1)
        omega
      simp [ht, this]
    · have hle : (((hist.take cap).take (j + 1)).sum : ℚ) ≤ (t : ℚ) := by
        exact_mod_cast le_trans (take_sum_le _ _) htot
      have htq : (0 : ℚ) < (t : ℚ) := by exact_mod_cast ht
      rw [zero_add, div_le_one htq]
      exact hle
  · push_neg at hj
    rw [List.getD_append_right _ _ _ _ hj]
    rcases Nat.eq_zero_or_pos (j - (cumulative t 0 (hist.take cap)).length) with h | h
    · rw [h]; simp
    · have hlen1 : ([0] : List ℚ).length ≤ j - (cumulative t 0 (hist.take cap)).length := by
        simp only [List.length_singleton]
        omega
      rw [List.getD_eq_default _ _ hlen1]
      norm_num

/-- The hues-table entry of a bucket dominates that bucket's own
normalized count. -/
lemma huesList_getD_ge (cap : ℕ) (hist : List ℕ) (t : ℕ) (k : ℕ)
    (hk : k < cap) (hklen : k < hist.length) :
    ((hist.getD k 0 : ℕ) : ℚ) / (t : ℚ) ≤ (huesList cap hist t).getD k 0 := by
  unfold huesList
  have hlen : k < (cumulative t 0 (hist.take cap)).length := by
    rw [cumulative_length, List.length_take]
    omega
  rw [List.getD_append _ _ _ _ hlen]
  rw [cumulative_getD t _ k 0 (by rwa [cumulative_length] at hlen)]
  rw [zero_add]
  have htt : (hist.take cap).take (k + 1) = hist.take (k + 1) := by
    rw [List.take_take, Nat.min_eq_left (by omega : k + 1 ≤ cap)]
  rw [htt]
  rcases Nat.eq_zero_or_pos t with ht | ht
  · simp [ht]
  · gcongr
    exact_mod_cast getD_le_take_sum hist k hklen

/-- The sentinel entry `hues[cap]` is 0 (line 148 pushes `0.0`). -/
lemma huesList_getD_cap (cap : ℕ) (hist : List ℕ) (t : ℕ)
    (hlen : cap ≤ hist.length) :
    (huesList cap hist t).getD cap 0 = 0 := by
  unfold huesList
  have hcl : (cumulative t 0 (hist.take cap)).length = cap := by
    rw [cumulative_length, List.length_take]
    omega
  rw [List.getD_append_right _ _ _ _ (le_of_eq hcl)]
  simp [hcl]

/-! ## Saturating cast lemmas -/

lemma satFloor_lt_cap {x : ℝ} {cap : ℕ} (hcap : 0 < cap) (hx : x < (cap : ℝ)) :
    satFloor x < cap := by
  unfold satFloor
  have h1 : ⌊x⌋ < (cap : ℤ) := by
    rw [Int.floor_lt]
    exact_mod_cast hx
  omega

lemma satCeil_le_cap {x : ℝ} {cap : ℕ} (hx : x < (cap : ℝ)) :
    satCeil x ≤ cap := by
  unfold satCeil
  have h1 : ⌈x⌉ ≤ (cap : ℤ) := by
    rw [Int.ceil_le]
    exact_mod_cast le_of_lt hx
  omega

lemma satFloor_of_neg {x : ℝ} (hx : x < 0) : satFloor x = 0 := by
  unfold satFloor
  have := Int.floor_nonpos (le_of_lt hx)
  omega

lemma satCeil_of_neg {x : ℝ} (hx : x < 0) : satCeil x = 0 := by
  unfold satCeil
  have h1 : ⌈x⌉ ≤ (0 : ℤ) := Int.ceil_le.mpr (by exact_mod_cast le_of_lt hx)
  omega

lemma rustRem_one_of_nonneg {x : ℝ} (hx : 0 ≤ x) : rustRem x 1 = Int.fract x := by
  unfold rustRem truncR
  rw [div_one, if_pos hx, one_mul, Int.self_sub_floor]

/-! ## Concrete evaluations of `calc_point` -/

lemma zIter_one (c : Complex64) : zIter c 1 = c := by
  obtain ⟨p, q⟩ := c
  show stepZ _ ⟨0, 0⟩ = _
  simp only [stepZ, Complex64.mul, Complex64.add, Complex64.mk.injEq]
  norm_num

lemma zIter_two (c : Complex64) : zIter c 2 = stepZ c (stepZ c ⟨0, 0⟩) := rfl

/-- At c = 3 the orbit escapes at the first iteration with |z| = 3. -/
lemma calcPoint_three_formula :
    calcPoint 2 ⟨3, 0⟩ = 2 - Real.logb 10 (Real.logb 2 3) := by
  have h1 : zIter (⟨3, 0⟩ : Complex64) 1 = ⟨3, 0⟩ := zIter_one _
  have hform := calcPoint_of_escape ⟨3, 0⟩ 2 1 (by norm_num)
    (fun j hj => by
      interval_cases j
      norm_num [zIter, Complex64.norm_sqr])
    (by rw [h1]; norm_num [Complex64.norm_sqr])
  rw [hform, h1]
  have h9 : ((Complex64.norm_sqr ⟨3, 0⟩ : ℚ) : ℝ) = 9 := by
    norm_num [Complex64.norm_sqr]
  rw [h9, show (9 : ℝ) = 3 ^ 2 by norm_num, Real.sqrt_sq (by norm_num)]
  push_cast
  ring

lemma calcPoint_three_lt_two : calcPoint 2 ⟨3, 0⟩ < 2 := by
  rw [calcPoint_three_formula]
  have := logb_nested_pos (show (2 : ℝ) < 3 by norm_num)
  linarith

lemma one_lt_calcPoint_three : 1 < calcPoint 2 ⟨3, 0⟩ := by
  rw [calcPoint_three_formula]
  have := logb_nested_lt_one (show (2 : ℝ) < 3 by norm_num)
    (show (3 : ℝ) ≤ 6 by norm_num)
  linarith

lemma satCeil_calcPoint_three : satCeil (calcPoint 2 ⟨3, 0⟩) = 2 := by
  unfold satCeil
  have hup : ⌈calcPoint 2 ⟨3, 0⟩⌉ ≤ 2 :=
    Int.ceil_le.mpr (by exact_mod_cast le_of_lt calcPoint_three_lt_two)
  have hlo : (1 : ℤ) < ⌈calcPoint 2 ⟨3, 0⟩⌉ :=
    Int.lt_ceil.mpr (by exact_mod_cast one_lt_calcPoint_three)
  omega

/-! ## Claim C3 -/

/-- C3: for every complex point `c` and iteration cap `N > 0`, `calc_point`
iterates `z ← z² + c` from `z = 0`, stopping as soon as `|z|² > 4.0` or the
iteration count reaches `N`; it returns exactly `N` (as a real number) when
the cap is reached without escape, and otherwise returns
`iterations + 1 − log10(log2(|z|))` where `|z|` is the modulus of the final
`z` — the first orbit point whose squared modulus exceeds 4. -/
theorem C3_calc_point_formula (c : Complex64) (cap n₀ : ℕ) (_hcap : 0 < cap) :
    ((∀ n, n < cap → (zIter c n).norm_sqr ≤ 4) → calcPoint cap c = cap) ∧
    (n₀ < cap → (∀ j, j < n₀ → (zIter c j).norm_sqr ≤ 4) →
      4 < (zIter c n₀).norm_sqr →
      calcPoint cap c = (n₀ : ℝ) + 1 -
        Real.logb 10 (Real.logb 2 (Real.sqrt (((zIter c n₀).norm_sqr : ℚ) : ℝ)))) :=
  ⟨fun h => calcPoint_of_noescape c cap h,
   fun h1 h2 h3 => calcPoint_of_escape c cap n₀ h1 h2 h3⟩

/-- Witness for C3: at c = 3 + 0i with cap 2, escape occurs at iteration 1
and the continuous formula applies to that orbit point. -/
theorem C3_calc_point_formula_witness :
    calcPoint 2 ⟨3, 0⟩ = ((1 : ℕ) : ℝ) + 1 -
      Real.logb 10 (Real.logb 2 (Real.sqrt (((zIter ⟨3, 0⟩ 1).norm_sqr : ℚ) : ℝ))) :=
  (C3_calc_point_formula ⟨3, 0⟩ 2 1 (by norm_num)).2 (by norm_num)
    (fun j hj => by
      interval_cases j
      norm_num [zIter, Complex64.norm_sqr])
    (by rw [zIter_one]; norm_num [Complex64.norm_sqr])

/-! ## Claim C4 -/

/-- C4 as stated is false: the claimed lower bound `0 ≤ calc_point c N` fails
for points far outside the escape circle.  At c = 2¹⁰¹ + 0i with cap 2 the
loop escapes at iteration 1 with `|z| = 2¹⁰¹`, and the returned value is
`2 − log10(101) < 0`. -/
theorem C4_range_counterexample : calcPoint 2 ⟨(2 : ℚ) ^ 101, 0⟩ < 0 := by
  have h1 : zIter (⟨(2 : ℚ) ^ 101, 0⟩ : Complex64) 1 = ⟨(2 : ℚ) ^ 101, 0⟩ :=
    zIter_one _
  have hform := calcPoint_of_escape ⟨(2 : ℚ) ^ 101, 0⟩ 2 1 (by norm_num)
    (fun j hj => by
      interval_cases j
      norm_num [zIter, Complex64.norm_sqr])
    (by rw [h1]; norm_num [Complex64.norm_sqr])
  rw [hform, h1]
  have hnorm : ((Complex64.norm_sqr ⟨(2 : ℚ) ^ 101, 0⟩ : ℚ) : ℝ) = (2 : ℝ) ^ 202 := by
    simp only [Complex64.norm_sqr]
    push_cast
    ring
  rw [hnorm]
  have hsqrt : Real.sqrt ((2 : ℝ) ^ 202) = 2 ^ 101 := by
    rw [show ((2 : ℝ) ^ 202) = ((2 : ℝ) ^ 101) ^ 2 by rw [← pow_mul]]
    exact Real.sqrt_sq (by positivity)
  rw [hsqrt]
  have hlog2 : Real.logb 2 ((2 : ℝ) ^ 101) = 101 := by
    rw [Real.logb_pow, Real.logb_self_eq_one (by norm_num)]
    norm_num
  rw [hlog2]
  have h100 : (2 : ℝ) < Real.logb 10 101 := by
    rw [Real.lt_logb_iff_rpow_lt (by norm_num) (by norm_num)]
    rw [show (10 : ℝ) ^ (2 : ℝ) = 100 by
      rw [show (2 : ℝ) = ((2 : ℕ) : ℝ) by norm_num, Real.rpow_natCast]
      norm_num]
    norm_num
  push_cast
  linarith

/-- C4 amended: for every `c` and cap `N > 0` the value of `calc_point` is
at most `N`; it is strictly below `N` whenever some orbit point below the
cap escapes; and the claimed lower bound `0 ≤ value` does hold whenever
`|c| ≤ 2` (i.e. `norm_sqr c ≤ 4`), which covers every point of the
classical Mandelbrot viewport — but not arbitrary points, see the
counterexample. -/
theorem C4_amended_range (c : Complex64) (cap : ℕ) (_hcap : 0 < cap) :
    calcPoint cap c ≤ cap ∧
    ((∃ n, n < cap ∧ 4 < (zIter c n).norm_sqr) → calcPoint cap c < cap) ∧
    (c.norm_sqr ≤ 4 → 0 ≤ calcPoint cap c) :=
  ⟨calcPoint_le_cap cap c, calcPoint_lt_cap_of_escape cap c,
   calcPoint_nonneg_of_small cap c⟩

/-- Witness for the amended C4 at c = 2 + 0i, cap 3: the orbit escapes at
iteration 2 (z₂ = 6), so the value lies in [0, 3). -/
theorem C4_amended_range_witness :
    calcPoint 3 ⟨2, 0⟩ ≤ 3 ∧ calcPoint 3 ⟨2, 0⟩ < 3 ∧ 0 ≤ calcPoint 3 ⟨2, 0⟩ := by
  have h := C4_amended_range ⟨2, 0⟩ 3 (by norm_num)
  have hesc : ∃ n, n < 3 ∧ 4 < (zIter (⟨2, 0⟩ : Complex64) n).norm_sqr := by
    refine ⟨2, by norm_num, ?_⟩
    rw [zIter_two]
    norm_num [stepZ, Complex64.mul, Complex64.add, Complex64.norm_sqr]
  have hsmall : (⟨2, 0⟩ : Complex64).norm_sqr ≤ 4 := by
    norm_num [Complex64.norm_sqr]
  exact ⟨by exact_mod_cast h.1, by exact_mod_cast h.2.1 hesc, h.2.2 hsmall⟩

/-! ## Claim C5 -/

/-- C5 as stated is false: the ceil index used by pass 2 is *not* always
strictly below the cap.  At c = 3 + 0i with cap 2 the pixel escapes
(value ≈ 1.8 < 2) yet `m.ceil() as usize = 2 = cap`, so the lookup reads
the sentinel entry `hues[cap]`. -/
theorem C5_ceil_counterexample :
    calcPoint 2 ⟨3, 0⟩ < 2 ∧ satCeil (calcPoint 2 ⟨3, 0⟩) = 2 :=
  ⟨calcPoint_three_lt_two, satCeil_calcPoint_three⟩

/-- C5 amended: the hues table entry at index `cap` is the sentinel 0, and
for every escaped value `m < cap` the floor index is strictly below `cap`
while the ceil index is at most `cap` — it can equal `cap` (then the lookup
reads the sentinel), but both lookups stay inside the length-`(cap+1)`
table. -/
theorem C5_amended_indices (c : Complex64) (cap : ℕ) (hist : List ℕ) (t : ℕ)
    (hcap : 0 < cap) (hlen : cap ≤ hist.length)
    (hesc : calcPoint cap c < (cap : ℝ)) :
    satFloor (calcPoint cap c) < cap ∧ satCeil (calcPoint cap c) ≤ cap ∧
    (huesList cap hist t).getD cap 0 = 0 :=
  ⟨satFloor_lt_cap hcap hesc, satCeil_le_cap hesc,
   huesList_getD_cap cap hist t hlen⟩

/-- Witness for the amended C5 at c = 3 + 0i, cap 2, histogram [0, 1],
escape total 1. -/
theorem C5_amended_indices_witness :
    satFloor (calcPoint 2 ⟨3, 0⟩) < 2 ∧ satCeil (calcPoint 2 ⟨3, 0⟩) ≤ 2 ∧
    (huesList 2 [0, 1] 1).getD 2 0 = 0 :=
  C5_amended_indices ⟨3, 0⟩ 2 [0, 1] 1 (by norm_num) (by norm_num)
    (by exact_mod_cast calcPoint_three_lt_two)

/-! ## Claim C8 -/

/-- C8: the escape-time evaluation is deterministic and cap-monotone: if
evaluation with cap `N₁` escapes (returns a value strictly below `N₁`),
then evaluation of the same point with any cap `N₂ ≥ N₁` returns exactly
the same value. -/
theorem C8_cap_monotone (c : Complex64) (cap1 cap2 : ℕ) (hle : cap1 ≤ cap2)
    (hesc : calcPoint cap1 c < (cap1 : ℝ)) :
    calcPoint cap2 c = calcPoint cap1 c := by
  obtain ⟨n₀, h1, h2, h3⟩ :=
    exists_least_escape c cap1 (escape_of_calcPoint_lt cap1 c hesc)
  rw [calcPoint_of_escape c cap1 n₀ h1 h3 h2,
    calcPoint_of_escape c cap2 n₀ (lt_of_lt_of_le h1 hle) h3 h2]

/-- Witness for C8 at c = 3 + 0i with caps 2 ≤ 3. -/
theorem C8_cap_monotone_witness :
    calcPoint 2 ⟨3, 0⟩ < 2 ∧ calcPoint 3 ⟨3, 0⟩ = calcPoint 2 ⟨3, 0⟩ :=
  ⟨calcPoint_three_lt_two,
   C8_cap_monotone ⟨3, 0⟩ 2 3 (by norm_num)
     (by exact_mod_cast calcPoint_three_lt_two)⟩

/-! ## Claim C9: shape of the output buffer -/

lemma pixelBytes_length (cap : ℕ) (pix : PixelFormat) (hues : List ℚ) (mv : ℝ) :
    (pixelBytes cap pix hues mv).length = 4 := by
  unfold pixelBytes
  split
  · cases pix <;> simp
  · simp

lemma pixelBytes_getD_three (cap : ℕ) (pix : PixelFormat) (hues : List ℚ)
    (mv : ℝ) : (pixelBytes cap pix hues mv).getD 3 0 = 255 := by
  unfold pixelBytes
  split
  · cases pix <;> simp
  · simp

lemma flatMap_four_length {β : Type} (f : β → List ℕ) :
    ∀ (l : List β), (∀ b ∈ l, (f b).length = 4) →
      (l.flatMap f).length = 4 * l.length
  | [], _ => rfl
  | b :: bs, h => by
      rw [List.flatMap_cons, List.length_append, h b (List.mem_cons_self _ _),
        flatMap_four_length f bs (fun x hx => h x (List.mem_cons_of_mem _ hx)),
        List.length_cons]
      omega

lemma flatMap_four_alpha {β : Type} (f : β → List ℕ) :
    ∀ (l : List β),
      (∀ b ∈ l, (f b).length = 4 ∧ (f b).getD 3 0 = 255) →
      ∀ i, i < l.length → (l.flatMap f).getD (4 * i + 3) 0 = 255
  | [], _, i, hi => absurd hi (by simp)
  | b :: bs, h, 0, _ => by
      rw [List.flatMap_cons]
      have hlen : (f b).length = 4 := (h b (List.mem_cons_self _ _)).1
      have h3 : 4 * 0 + 3 = 3 := by norm_num
      rw [h3, List.getD_append _ _ _ _ (by omega)]
      exact (h b (List.mem_cons_self _ _)).2
  | b :: bs, h, i + 1, hi => by
      rw [List.flatMap_cons]
      have hlen : (f b).length = 4 := (h b (List.mem_cons_self _ _)).1
      rw [List.getD_append_right _ _ _ _ (by omega)]
      have hidx : 4 * (i + 1) + 3 - (f b).length = 4 * i + 3 := by omega
      rw [hidx]
      exact flatMap_four_alpha f bs
        (fun x hx => h x (List.mem_cons_of_mem _ hx)) i (by simpa using hi)

lemma imageIter_length (m : Mandelbrot) :
    m.imageIter.length = m.config.height * m.config.width := by
  unfold Mandelbrot.imageIter
  rw [List.length_flatMap]
  have hmap : (List.range m.config.height).map
      (List.length ∘ fun y => (List.range m.config.width).map fun x =>
        calcPoint m.config.iter (m.pixelPoint x y)) =
      List.replicate m.config.height m.config.width := by
    have : (List.length ∘ fun y => (List.range m.config.width).map fun x =>
        calcPoint m.config.iter (m.pixelPoint x y)) =
        fun _ => m.config.width := by
      funext y
      simp
    rw [this, List.map_const', List.length_range]
  rw [hmap, List.sum_replicate, smul_eq_mul]

/-- C9: for every configuration with positive width and height, `render`
returns a byte buffer of length exactly `width * height * 4`, and every
fourth byte (the alpha channel of each row-major pixel) equals 255 — for
both pixel formats, since the configuration (including its format field)
is arbitrary here. -/
theorem C9_buffer_shape (cfg : Config) (_hw : 0 < cfg.width)
    (_hh : 0 < cfg.height) :
    ((Mandelbrot.new cfg).render.1.length = cfg.width * cfg.height * 4) ∧
    ∀ i, i < cfg.width * cfg.height →
      (Mandelbrot.new cfg).render.1.getD (4 * i + 3) 0 = 255 := by
  constructor
  · show (pass2 _ _ _ _).length = _
    unfold pass2
    rw [flatMap_four_length _ _ (fun b _ => pixelBytes_length _ _ _ b),
      imageIter_length]
    show 4 * (cfg.height * cfg.width) = cfg.width * cfg.height * 4
    ring
  · intro i hi
    show (pass2 _ _ _ _).getD _ 0 = 255
    unfold pass2
    apply flatMap_four_alpha _ _
      (fun b _ => ⟨pixelBytes_length _ _ _ b, pixelBytes_getD_three _ _ _ b⟩)
    rw [imageIter_length]
    show i < cfg.height * cfg.width
    rw [Nat.mul_comm]
    exact hi

/-- Witness for C9 with a 1×1 RGBA8 configuration. -/
theorem C9_buffer_shape_witness :
    ((Mandelbrot.new (Config.new 1 1 0 0 1 1 PixelFormat.RGBA8)).render.1.length
        = 1 * 1 * 4) ∧
    (Mandelbrot.new (Config.new 1 1 0 0 1 1 PixelFormat.RGBA8)).render.1.getD
        (4 * 0 + 3) 0 = 255 :=
  ⟨(C9_buffer_shape (Config.new 1 1 0 0 1 1 PixelFormat.RGBA8) (by decide)
      (by decide)).1,
   (C9_buffer_shape (Config.new 1 1 0 0 1 1 PixelFormat.RGBA8) (by decide)
      (by decide)).2 0 (by decide)⟩

/-! ## Claim C7: no construction-time validation -/

/-- C7 is violated by the code: `Config::new` and `Mandelbrot::new` perform
no validation at all and have no failure path — construction succeeds for
*every* configuration, including the invalid `cfgInvalid` (zero width, zero
iteration cap), whose fields are stored untouched. -/
theorem C7_no_validation :
    (∀ cfg : Config, (Mandelbrot.new cfg).config = cfg) ∧
    (Mandelbrot.new cfgInvalid).config.width = 0 ∧
    (Mandelbrot.new cfgInvalid).config.iter = 0 :=
  ⟨fun _ => rfl, rfl, rfl⟩

/-! ## Claim C10: totality and sextant selection of `hsl_rgb` -/

lemma toU8_le (x : ℝ) : toU8 x ≤ 255 := by
  unfold toU8
  omega

/-- C10 as stated is false on its mechanism clause: at hue = −30 (a negative
value reachable only hypothetically, but squarely covered by the claim's
"negative hue values") the truncation gives `-30 as i32 / 60 = 0`, so the
*first* match arm is selected, not the catch-all last sextant. -/
theorem C10_sextant_counterexample :
    hslArc (-30) = 0 ∧ 0 ≤ hslArc (-30) ∧ hslArc (-30) ≤ 4 := by
  have htr : truncR ((-30 : ℝ)) = -30 := by
    unfold truncR
    rw [if_neg (by norm_num),
      show ((-30 : ℝ)) = ((-30 : ℤ) : ℝ) by norm_num, Int.ceil_intCast]
  have hi : toI32 ((-30 : ℝ)) = -30 := by
    unfold toI32
    rw [htr]
    decide
  unfold hslArc
  rw [hi]
  refine ⟨by decide, by decide, by decide⟩

/-- C10 amended: `hsl_rgb` is total for every finite hue (and saturation and
luminosity): each returned channel is an 8-bit value.  Hues at or above 360
and hues at or below −60 make the truncated `hue / 60` fall outside the
explicit arms `0..4` and so select the catch-all last sextant, but negative
hues in (−60, 0) truncate toward zero to sextant index 0, selecting the
first arm. -/
theorem C10_amended_total (hue sat lum : ℝ) :
    (hsl_rgb hue sat lum).1 ≤ 255 ∧ (hsl_rgb hue sat lum).2.1 ≤ 255 ∧
    (hsl_rgb hue sat lum).2.2 ≤ 255 ∧
    (360 ≤ hue → ¬(0 ≤ hslArc hue ∧ hslArc hue ≤ 4)) ∧
    (hue ≤ -60 → ¬(0 ≤ hslArc hue ∧ hslArc hue ≤ 4)) ∧
    (-60 < hue → hue < 0 → hslArc hue = 0) := by
  refine ⟨?_, ?_, ?_, ?_, ?_, ?_⟩
  · simp only [hsl_rgb]
    exact toU8_le _
  · simp only [hsl_rgb]
    exact toU8_le _
  · simp only [hsl_rgb]
    exact toU8_le _
  · rintro h360 ⟨h0, h4⟩
    have htr : (360 : ℤ) ≤ truncR hue := by
      unfold truncR
      rw [if_pos (by linarith : (0 : ℝ) ≤ hue)]
      exact Int.le_floor.mpr (by exact_mod_cast h360)
    have hi : (360 : ℤ) ≤ toI32 hue ∧ toI32 hue ≤ 2147483647 := by
      unfold toI32
      omega
    have h6 : (6 : ℤ) ≤ hslArc hue := by
      unfold hslArc
      rw [Int.tdiv_eq_ediv (by omega) (by norm_num)]
      rw [Int.le_ediv_iff_mul_le (by norm_num)]
      omega
    omega
  · rintro hneg ⟨h0, h4⟩
    have htr : truncR hue ≤ -60 := by
      unfold truncR
      rw [if_neg (by linarith)]
      exact Int.ceil_le.mpr (by exact_mod_cast le_trans hneg (by norm_num))
    have hi : toI32 hue ≤ -60 ∧ -2147483648 ≤ toI32 hue := by
      unfold toI32
      omega
    have harc : hslArc hue ≤ -1 := by
      unfold hslArc
      have hrepr : toI32 hue = -(-(toI32 hue)) := by omega
      rw [hrepr, Int.neg_tdiv]
      have : (1 : ℤ) ≤ (-(toI32 hue)).tdiv 60 := by
        rw [Int.tdiv_eq_ediv (by omega) (by norm_num),
          Int.le_ediv_iff_mul_le (by norm_num)]
        omega
      omega
    omega
  · intro hgt hlt
    have htr : truncR hue ≤ 0 ∧ -60 < truncR hue := by
      unfold truncR
      rw [if_neg (by linarith)]
      constructor
      · exact Int.ceil_le.mpr (by exact_mod_cast le_of_lt hlt)
      · exact Int.lt_ceil.mpr (by exact_mod_cast hgt)
    have hi : toI32 hue ≤ 0 ∧ -60 < toI32 hue := by
      unfold toI32
      omega
    unfold hslArc
    have hrepr : toI32 hue = -(-(toI32 hue)) := by omega
    rw [hrepr, Int.neg_tdiv]
    have : (-(toI32 hue)).tdiv 60 = 0 := by
      rw [Int.tdiv_eq_ediv (by omega) (by norm_num)]
      exact Int.ediv_eq_zero_of_lt (by omega) (by omega)
    omega

/-- Witness for the amended C10 at hue = 400, which selects the catch-all
sextant, with the render's fixed saturation and luminosity. -/
theorem C10_amended_total_witness :
    (hsl_rgb 400 (90 / 100) (50 / 100)).1 ≤ 255 ∧
    ¬(0 ≤ hslArc 400 ∧ hslArc 400 ≤ 4) :=
  ⟨(C10_amended_total 400 (90 / 100) (50 / 100)).1,
   (C10_amended_total 400 (90 / 100) (50 / 100)).2.2.2.1 (by norm_num)⟩

/-! ## Claim C6: the final hue of every escaped pixel lies in [0, 360) -/

/-- C6: in a render from a freshly constructed instance, for every escaped
pixel value `m < cap` the pass-2 hue `360 − pos·360` — with `pos` the linear
interpolation of `hues[floor(m)]` and `hues[ceil(m)]` at fraction `m mod 1`
— lies in `[0, 360)`.  The key point is that the escaped pixel's own bucket
makes `hues[floor(m)]` strictly positive, and all hues entries lie in
`[0, 1]`, so `pos ∈ (0, 1]`. -/
theorem C6_hue_range (cfg : Config) (hiter : 0 < cfg.iter) (mv : ℝ)
    (hmem : mv ∈ (Mandelbrot.new cfg).imageIter)
    (hlt : mv < (cfg.iter : ℝ)) :
    0 ≤ pixelHue cfg.iter (Mandelbrot.renderHues (Mandelbrot.new cfg)) mv ∧
    pixelHue cfg.iter (Mandelbrot.renderHues (Mandelbrot.new cfg)) mv < 360 := by
  set M := Mandelbrot.new cfg with hM
  set st := M.renderState with hst
  have hstate : st = pass1 cfg.iter M.imageIter (List.replicate cfg.iter 0) 0 := rfl
  have hrep_len : (List.replicate cfg.iter (0 : ℕ)).length = cfg.iter :=
    List.length_replicate _ _
  have hfloor_lt : satFloor mv < cfg.iter := satFloor_lt_cap hiter hlt
  have hlen2 : st.1.length = cfg.iter := by
    rw [hstate]
    unfold pass1
    rw [pass1_length]
    exact hrep_len
  have hsum : st.1.sum = st.2 := by
    have hall : ∀ v ∈ M.imageIter, v < ((cfg.iter : ℕ) : ℝ) →
        satFloor v < (List.replicate cfg.iter (0 : ℕ), 0).1.length := by
      intro v _ hv
      simpa [hrep_len] using satFloor_lt_cap hiter hv
    have := pass1_sum cfg.iter M.imageIter (List.replicate cfg.iter 0, 0) hall
    rw [hstate]
    unfold pass1
    simpa [List.sum_replicate] using this
  have hbucket : 1 ≤ st.1.getD (satFloor mv) 0 := by
    rw [hstate]
    unfold pass1
    exact pass1_bucket cfg.iter M.imageIter _ mv hmem hlt
      (by simpa [hrep_len] using hfloor_lt)
  have htot1 : 1 ≤ st.2 := le_trans hbucket (hsum ▸ getD_le_sum st.1 (satFloor mv))
  have htake : (st.1.take cfg.iter).sum ≤ st.2 := hsum ▸ take_sum_le st.1 cfg.iter
  have hues_eq : Mandelbrot.renderHues M = huesList cfg.iter st.1 st.2 := rfl
  have ha_pos : (0 : ℚ) < (huesList cfg.iter st.1 st.2).getD (satFloor mv) 0 := by
    have hge := huesList_getD_ge cfg.iter st.1 st.2 (satFloor mv) hfloor_lt
      (by rw [hlen2]; exact hfloor_lt)
    have h1t : (0 : ℚ) < ((st.1.getD (satFloor mv) 0 : ℕ) : ℚ) / ((st.2 : ℕ) : ℚ) := by
      apply div_pos
      · exact_mod_cast hbucket
      · exact_mod_cast htot1
    exact lt_of_lt_of_le h1t hge
  have hnn := huesList_getD_nonneg cfg.iter st.1 st.2
  have hle1 := huesList_getD_le_one cfg.iter st.1 st.2 htake
  have haR : (0 : ℝ) < (((huesList cfg.iter st.1 st.2).getD (satFloor mv) 0 : ℚ) : ℝ) := by
    exact_mod_cast ha_pos
  have haR1 : (((huesList cfg.iter st.1 st.2).getD (satFloor mv) 0 : ℚ) : ℝ) ≤ 1 := by
    exact_mod_cast hle1 (satFloor mv)
  have hbR : (0 : ℝ) ≤ (((huesList cfg.iter st.1 st.2).getD (satCeil mv) 0 : ℚ) : ℝ) := by
    exact_mod_cast hnn (satCeil mv)
  have hbR1 : (((huesList cfg.iter st.1 st.2).getD (satCeil mv) 0 : ℚ) : ℝ) ≤ 1 := by
    exact_mod_cast hle1 (satCeil mv)
  rw [hues_eq]
  unfold pixelHue
  rw [if_pos (ne_of_lt hlt)]
  unfold linear_interpolation
  rcases lt_or_le mv 0 with hneg | hpos
  · rw [satCeil_of_neg hneg] at hbR hbR1 ⊢
    rw [satFloor_of_neg hneg] at haR haR1 ⊢
    constructor <;> nlinarith [haR, haR1]
  · have htR : rustRem mv 1 = Int.fract mv := rustRem_one_of_nonneg hpos
    rw [htR]
    have ht0 : 0 ≤ Int.fract mv := Int.fract_nonneg mv
    have ht1 : Int.fract mv < 1 := Int.fract_lt_one mv
    have hpos_le :
        (((huesList cfg.iter st.1 st.2).getD (satFloor mv) 0 : ℚ) : ℝ) * (1 - Int.fract mv) +
          (((huesList cfg.iter st.1 st.2).getD (satCeil mv) 0 : ℚ) : ℝ) * Int.fract mv ≤ 1 := by
      have h1 := mul_le_mul_of_nonneg_right haR1 (by linarith : (0 : ℝ) ≤ 1 - Int.fract mv)
      have h2 := mul_le_mul_of_nonneg_right hbR1 ht0
      linarith
    have hpos_pos :
        0 < (((huesList cfg.iter st.1 st.2).getD (satFloor mv) 0 : ℚ) : ℝ) * (1 - Int.fract mv) +
          (((huesList cfg.iter st.1 st.2).getD (satCeil mv) 0 : ℚ) : ℝ) * Int.fract mv := by
      have h1 := mul_pos haR (by linarith : (0 : ℝ) < 1 - Int.fract mv)
      have h2 := mul_nonneg hbR ht0
      linarith
    constructor <;> linarith

/-- The list `imageIter` of a 1×1 instance is the one-point list at pixel (0, 0). -/
lemma imageIter_one_one (m : Mandelbrot) (hw : m.config.width = 1)
    (hh : m.config.height = 1) :
    m.imageIter = [calcPoint m.config.iter (m.pixelPoint 0 0)] := by
  unfold Mandelbrot.imageIter
  rw [hw, hh]
  rfl

/-- Witness for C6: the unique pixel of `cfgEscape` escapes (its point has
squared modulus ≈ 8.99 > 4 after one iteration), and its hue is in
[0, 360). -/
theorem C6_hue_range_witness :
    0 ≤ pixelHue 2 (Mandelbrot.renderHues (Mandelbrot.new cfgEscape))
        (calcPoint 2 ((Mandelbrot.new cfgEscape).pixelPoint 0 0)) ∧
    pixelHue 2 (Mandelbrot.renderHues (Mandelbrot.new cfgEscape))
        (calcPoint 2 ((Mandelbrot.new cfgEscape).pixelPoint 0 0)) < 360 := by
  have hmem : calcPoint 2 ((Mandelbrot.new cfgEscape).pixelPoint 0 0) ∈
      (Mandelbrot.new cfgEscape).imageIter := by
    rw [imageIter_one_one _ rfl rfl]
    exact List.mem_singleton_self _
  have hesc : ∃ n, n < 2 ∧
      4 < (zIter ((Mandelbrot.new cfgEscape).pixelPoint 0 0) n).norm_sqr := by
    refine ⟨1, by norm_num, ?_⟩
    rw [zIter_one]
    norm_num [Mandelbrot.pixelPoint, Mandelbrot.new, Mandelbrot.x_step,
      Mandelbrot.y_step, Complex64.norm_sqr, DEFAULT_ZOOM, cfgEscape, Config.new]
  have hlt : calcPoint 2 ((Mandelbrot.new cfgEscape).pixelPoint 0 0) < ((2 : ℕ) : ℝ) :=
    calcPoint_lt_cap_of_escape 2 _ hesc
  exact C6_hue_range cfgEscape (by decide) _ hmem (by exact_mod_cast hlt)

/-! ## Concrete render evaluation at `cfgInside` (claims C1 and C2) -/

/-- The single sampled point of `cfgInside` is the top-left viewport corner,
a tiny offset from the origin. -/
lemma cfgInside_noescape :
    ∀ n, n < 2 → (zIter ((Mandelbrot.new cfgInside).pixelPoint 0 0) n).norm_sqr ≤ 4 := by
  intro n hn
  interval_cases n
  · norm_num [zIter, Complex64.norm_sqr]
  · rw [zIter_one]
    norm_num [Mandelbrot.pixelPoint, Mandelbrot.new, Mandelbrot.x_step,
      Mandelbrot.y_step, Complex64.norm_sqr, DEFAULT_ZOOM, cfgInside, Config.new]

lemma cfgInside_calcPoint :
    calcPoint 2 ((Mandelbrot.new cfgInside).pixelPoint 0 0) = ((2 : ℕ) : ℝ) :=
  calcPoint_of_noescape _ 2 cfgInside_noescape

/-- The list `imageIter` only depends on the configuration and viewport fields. -/
lemma imageIter_congr (m m' : Mandelbrot) (hc : m.config = m'.config)
    (hv : m.viewport = m'.viewport) : m.imageIter = m'.imageIter := by
  unfold Mandelbrot.imageIter Mandelbrot.pixelPoint Mandelbrot.x_step Mandelbrot.y_step
  rw [hc, hv]

lemma cfgInside_imageIter :
    (Mandelbrot.new cfgInside).imageIter = [((2 : ℕ) : ℝ)] := by
  rw [imageIter_one_one _ rfl rfl]
  show [calcPoint 2 ((Mandelbrot.new cfgInside).pixelPoint 0 0)] = _
  rw [cfgInside_calcPoint]

/-- Pass 1 over the single non-escaped pixel leaves any histogram state
unchanged. -/
lemma pass1_inside (hist : List ℕ) (t : ℕ) :
    pass1 2 [((2 : ℕ) : ℝ)] hist t = (hist, t) := by
  unfold pass1 pass1Step
  norm_num

lemma cfgInside_renderState :
    (Mandelbrot.new cfgInside).renderState = ([0, 0], 0) := by
  unfold Mandelbrot.renderState
  rw [cfgInside_imageIter]
  show pass1 2 _ ([] ++ List.replicate 2 0) 0 = _
  rw [List.nil_append]
  exact pass1_inside _ 0

lemma cfgInside_rendered_imageIter :
    (Mandelbrot.new cfgInside).render.2.imageIter = [((2 : ℕ) : ℝ)] := by
  rw [imageIter_congr (Mandelbrot.new cfgInside).render.2 (Mandelbrot.new cfgInside)
    rfl rfl]
  exact cfgInside_imageIter

lemma cfgInside_renderState_two :
    (Mandelbrot.new cfgInside).render.2.renderState = ([0, 0, 0, 0], 0) := by
  unfold Mandelbrot.renderState
  rw [cfgInside_rendered_imageIter]
  show pass1 2 _ ((Mandelbrot.new cfgInside).renderState.1 ++ List.replicate 2 0)
      (Mandelbrot.new cfgInside).renderState.2 = _
  rw [cfgInside_renderState]
  exact pass1_inside _ 0

/-! ## Claim C1: the working state persists across render calls -/

/-- C1 is violated by the code: the histogram and escape total live on the
instance and are *not* re-initialized per render.  `render` merely pushes
`cap` additional zeros onto the existing `hist` (lines 121-123) and keeps
accumulating `iter_total`.  After one render of the 1×1 `cfgInside` the
instance carries `hist = [0, 0]`; after a second render it carries
`hist = [0, 0, 0, 0]` — a length-4 histogram, not the freshly zeroed
length-`cap` (= 2) histogram the claim requires at the start of every
call. -/
theorem C1_state_accumulates :
    (Mandelbrot.new cfgInside).render.2.hist = [0, 0] ∧
    (Mandelbrot.new cfgInside).render.2.render.2.hist = [0, 0, 0, 0] ∧
    (Mandelbrot.new cfgInside).render.2.render.2.hist.length ≠ cfgInside.iter := by
  refine ⟨?_, ?_, ?_⟩
  · show (Mandelbrot.new cfgInside).renderState.1 = _
    rw [cfgInside_renderState]
  · show (Mandelbrot.new cfgInside).render.2.renderState.1 = _
    rw [cfgInside_renderState_two]
  · show (Mandelbrot.new cfgInside).render.2.renderState.1.length ≠ _
    rw [cfgInside_renderState_two]
    decide

/-! ## Claim C2: no guard against a zero escape total -/

/-- C2 is violated by the code: with `cfgInside` no pixel escapes, so
`iter_total` is 0 after pass 1, and `render` performs the division
`hist[i] as f32 / 0.0` anyway — there is no explicit zero check before the
normalization loop.  In the f32-faithful model every non-sentinel hues
entry is a non-finite value (`none`, i.e. NaN): the division is executed,
not skipped.  The output buffer is nevertheless the all-background image
`[0, 0, 0, 255]`, but only because no escaped pixel exists to read the
poisoned hues table, not because the degenerate case was detected. -/
theorem C2_nan_in_hues :
    (Mandelbrot.new cfgInside).renderHuesF = [none, none, some 0] ∧
    (Mandelbrot.new cfgInside).render.1 = [0, 0, 0, 255] := by
  constructor
  · unfold Mandelbrot.renderHuesF
    rw [cfgInside_renderState]
    rfl
  · show pass2 _ _ _ _ = _
    unfold pass2
    rw [cfgInside_imageIter]
    show pixelBytes 2 _ _ _ ++ [] = _
    unfold pixelBytes
    rw [if_neg (by norm_num)]
    rfl

end FractalRs
